import Mathlib

/-!
# Verification of the NetraAI query-serving pipeline

Shallow embedding of the core components of the NetraAI backend:

* `chunk_text` / `find_last_match` from `backend/app/utils/text_chunker.py`,
  modelled on `List Char` with Python slice semantics (`pySlice`) and an
  explicit fuel parameter for the `while` loop;
* `ResponseCache` from `backend/app/services/cache.py` (`cacheGet`,
  `cacheSet`, `cacheStats`), with the external `hashlib.md5` digest kept as
  an abstract parameter `H` of the key derivation;
* `KnowledgeBase.search` from `backend/app/services/knowledge_base.py`
  (`kb_search`), with the ChromaDB collection abstracted to its chunk count
  and the outcome of one `query` call;
* the `/chat` and `/chat/stream` handlers from `backend/app/api/routes.py`
  (`chat`, `chat_stream`), with the generation provider abstracted to a
  function, respectively to the list of deltas it yields and whether it
  raises afterwards.

Distances and times are modelled as `ℚ`.
-/

set_option maxRecDepth 100000

/-! ## Python primitives on `List Char` -/

/-- Python whitespace (the ASCII part of `str.strip` / regex `\s`). -/
def pyWs (c : Char) : Bool :=
  c == ' ' || c == '\t' || c == '\n' || c == '\x0d' || c == '\x0b' || c == '\x0c'

/-- Python `str.lower`, pointwise (ASCII, as in `Char.toLower`). -/
def pyLower (c : Char) : Char := c.toLower

/-- Python `str.strip()`: drop leading and trailing whitespace. -/
def pyStrip (l : List Char) : List Char :=
  ((l.dropWhile pyWs).reverse.dropWhile pyWs).reverse

/-- Resolution of one Python slice index: negative indices count from the
end, and the result is clamped to `[0, n]`. -/
def sliceIdx (n a : Int) : Int :=
  if a < 0 then max (n + a) 0 else min a n

/-- Python `l[a:b]` on a list of characters. -/
def pySlice (l : List Char) (a b : Int) : List Char :=
  let n : Int := l.length
  (l.drop (sliceIdx n a).toNat).take ((sliceIdx n b) - (sliceIdx n a)).toNat

/-! ## `find_last_match` (text_chunker.py)

`find_last_match(text, pattern)` returns `matches[-1].end()` of
`re.finditer`, i.e. the end position of the last match of a left-to-right
non-overlapping scan, or `None`.  The three patterns used by `chunk_text`
are `"\n\n"`, `"[.!?]\s"` (both of match length 2) and `"\s"` (length 1),
so we provide a two-character scanner `scan2` and a one-character scanner
`lastWsEnd`.  All returned positions are at least 1, which is why Python's
truthiness tests (`if para_match:`) agree with the `None` test. -/

/-- Left-to-right non-overlapping scan for a two-character pattern,
returning the end position of the last match.  The scan advances one
character at a time; `skip` is true when the current position is the second
character of the previous match, so no new match may start there. -/
def scan2 (p : Char → Char → Bool) : List Char → Nat → Bool → Option Nat → Option Nat
  | [], _, _, acc => acc
  | c :: rest, i, skip, acc =>
    if skip then scan2 p rest (i + 1) false acc
    else
      match rest.head? with
      | some c2 =>
        if p c c2 then scan2 p rest (i + 1) true (some (i + 2))
        else scan2 p rest (i + 1) false acc
      | none => acc

/-- End position of the last whitespace character (pattern `"\s"`). -/
def lastWsEnd : List Char → Nat → Option Nat → Option Nat
  | [], _, acc => acc
  | c :: rest, i, acc => lastWsEnd rest (i + 1) (if pyWs c then some (i + 1) else acc)

/-- Sentence-ending punctuation, the character class `[.!?]`. -/
def isPunct (c : Char) : Bool := c == '.' || c == '!' || c == '?'

/-- `find_last_match(w, "\n\n")`. -/
def lastParaEnd (l : List Char) : Option Nat :=
  scan2 (fun a b => a == '\n' && b == '\n') l 0 false none

/-- `find_last_match(w, "[.!?]\s")`. -/
def lastSentEnd (l : List Char) : Option Nat :=
  scan2 (fun a b => isPunct a && pyWs b) l 0 false none

/-! ## `chunk_text` (text_chunker.py) -/

/-- One boundary computation of the `while` loop of `chunk_text`: the raw
cut `end = start + chunk_size`, snapped backward (searching only
`text[search_start:end]` with `search_start = max(start + chunk_size - 200,
start)`) to, in priority order, a paragraph break, a sentence end (the code
adds 1 to the match end there), or any whitespace. -/
def chunkEnd (t : List Char) (cs s : Int) : Int :=
  let n : Int := t.length
  let e := s + cs
  if e < n then
    let ss := max (s + cs - 200) s
    let w := pySlice t ss e
    match lastParaEnd w with
    | some p => ss + p
    | none =>
      match lastSentEnd w with
      | some k => ss + k + 1
      | none =>
        match lastWsEnd w 0 none with
        | some m => ss + m
        | none => e
  else e

/-- The cursor update `start = end - overlap if end < len(text) else
len(text)` of `chunk_text`. -/
def nextStart (t : List Char) (cs ov s : Int) : Int :=
  if chunkEnd t cs s < (t.length : Int) then chunkEnd t cs s - ov
  else (t.length : Int)

/-- `chunk = text[start:end].strip(); if chunk: chunks.append(chunk)`. -/
def pushChunk (t : List Char) (cs s : Int) (acc : List (List Char)) : List (List Char) :=
  if pyStrip (pySlice t s (chunkEnd t cs s)) = [] then acc
  else acc ++ [pyStrip (pySlice t s (chunkEnd t cs s))]

/-- The `while start < len(text)` loop of `chunk_text`, with explicit fuel;
`none` means the fuel ran out before the loop exited. -/
def chunkLoop (t : List Char) (cs ov : Int) : Nat → Int → List (List Char) → Option (List (List Char))
  | 0, s, acc => if s < (t.length : Int) then none else some acc
  | fuel + 1, s, acc =>
    if s < (t.length : Int) then
      chunkLoop t cs ov fuel (nextStart t cs ov s) (pushChunk t cs s acc)
    else some acc

/-- `chunk_text(text, chunk_size, overlap)`: fails closed below 50
characters, strips the text, returns a single chunk when the stripped text
fits, and otherwise runs the carving loop. -/
def chunk_text (t : List Char) (cs ov : Int) (fuel : Nat) : Option (List (List Char)) :=
  if t.length < 50 then some []
  else
    let t' := pyStrip t
    if (t'.length : Int) ≤ cs then some [t']
    else chunkLoop t' cs ov fuel 0 []

/-! Instrumented variant of the carving loop that records, for each
appended chunk, the window `(start, end)` it was cut from; used to state
the overlap bound between consecutive chunks. -/

/-- The chunk text carried by a recorded window. -/
def renderW (t : List Char) (w : Int × Int) : List Char :=
  pyStrip (pySlice t w.1 w.2)

/-- Window-recording twin of `pushChunk` (same append condition). -/
def pushWin (t : List Char) (cs s : Int) (acc : List (Int × Int)) : List (Int × Int) :=
  if pyStrip (pySlice t s (chunkEnd t cs s)) = [] then acc
  else acc ++ [(s, chunkEnd t cs s)]

/-- Window-recording twin of `chunkLoop` (same control flow). -/
def chunkLoopW (t : List Char) (cs ov : Int) : Nat → Int → List (Int × Int) → Option (List (Int × Int))
  | 0, s, acc => if s < (t.length : Int) then none else some acc
  | fuel + 1, s, acc =>
    if s < (t.length : Int) then
      chunkLoopW t cs ov fuel (nextStart t cs ov s) (pushWin t cs s acc)
    else some acc

/-! ## `ResponseCache` (cache.py)

The stored values are `ChatResponse` objects (schemas.py): a response
text, a context preview and a source list.  `hashlib.md5` is an external
library call; the key derivation keeps it as an abstract digest function
`H` applied to the normalized question, matching
`hashlib.md5(question.lower().strip().encode()).hexdigest()`.  `cachetools.
TTLCache` is modelled as an association list of `(key, value, insertedAt)`
entries: `get` treats an entry whose age has reached the TTL as absent,
and `set` replaces the key and evicts the oldest entries beyond
`maxsize`. -/

/-- The response object assembled by the `/chat` handler
(`ChatResponse` in `app/models/schemas.py`). -/
structure ChatResponse where
  response : List Char
  context_used : List Char
  sources : List (List Char)
deriving DecidableEq

/-- `ResponseCache._get_key`'s normalization: `question.lower().strip()`. -/
def pyNormalize (q : List Char) : List Char :=
  pyStrip (q.map pyLower)

/-- `ResponseCache._get_key(question)`, with the md5 hex digest abstracted
into `H`. -/
def getKey (H : List Char → List Char) (q : List Char) : List Char :=
  H (pyNormalize q)

/-- The state of a `ResponseCache`: the TTLCache entries
`(key, value, insertedAt)` plus the cumulative hit/miss counters and the
configured capacity and TTL.  Times are modelled in whole seconds
(`cache_ttl_seconds` is an integer setting). -/
structure CacheState where
  entries : List (List Char × ChatResponse × Int)
  hits : Nat
  misses : Nat
  maxsize : Nat
  ttl : Int
deriving DecidableEq

/-- `ResponseCache.get(question)` at time `now`: an entry is returned only
while its age is below the TTL; exactly one of the hit or miss counters is
incremented. -/
def cacheGet (H : List Char → List Char) (st : CacheState) (now : Int) (q : List Char) :
    Option ChatResponse × CacheState :=
  let k := getKey H q
  let r :=
    match st.entries.find? (fun e => decide (e.1 = k)) with
    | some e => if now - e.2.2 < st.ttl then some e.2.1 else none
    | none => none
  match r with
  | some v => (some v, { st with hits := st.hits + 1 })
  | none => (none, { st with misses := st.misses + 1 })

/-- `ResponseCache.set(question, response)` at time `now`: insert or
replace under the derived key; beyond `maxsize` entries the oldest
insertions are evicted. -/
def cacheSet (H : List Char → List Char) (st : CacheState) (now : Int) (q : List Char)
    (v : ChatResponse) : CacheState :=
  let k := getKey H q
  let es := (k, v, now) :: st.entries.filter (fun e => decide (¬ e.1 = k))
  { st with entries := if st.maxsize < es.length then es.take st.maxsize else es }

/-- Round to the nearest integer, ties to even (the rounding of Python's
`"%.1f"` formatting, applied to `num/den` here). -/
def roundHalfEven (num den : Nat) : Nat :=
  let q := num / den
  let r := num % den
  if 2 * r < den then q
  else if den < 2 * r then q + 1
  else if q % 2 = 0 then q else q + 1

/-- The `hit_rate` field of `ResponseCache.stats`:
`f"{hits/total*100:.1f}%"`, and `"0.0%"` (the formatting of `0`) when no
requests have occurred. -/
def hitRateString (hits misses : Nat) : String :=
  let total := hits + misses
  if total = 0 then "0.0%"
  else
    let n := roundHalfEven (1000 * hits) total
    toString (n / 10) ++ "." ++ toString (n % 10) ++ "%"

/-- The dictionary returned by the `ResponseCache.stats` property. -/
structure CacheStats where
  size : Nat
  max_size : Nat
  ttl_seconds : Int
  hits : Nat
  misses : Nat
  hit_rate : String
deriving DecidableEq

/-- `ResponseCache.stats`. -/
def cacheStats (st : CacheState) : CacheStats :=
  ⟨st.entries.length, st.maxsize, st.ttl, st.hits, st.misses,
    hitRateString st.hits st.misses⟩

/-! ## `KnowledgeBase.search` (knowledge_base.py)

The ChromaDB collection is abstracted to its chunk count and the outcome
of the single `collection.query` call: either an exception
(`Except.error`) or the parallel lists of returned documents, metadata
`source` fields (`none` when the field is absent) and distances. -/

/-- The relevant content of one `collection.query` result. -/
structure QueryOut where
  documents : List (List Char)
  metadatas : List (Option (List Char))
  distances : List ℚ
deriving DecidableEq

/-- The result triple of `KnowledgeBase.search`:
`(context, sources, best_distance)`. -/
structure SearchOut where
  context : List Char
  sources : List (List Char)
  bestDistance : ℚ
deriving DecidableEq

/-- The sentinel `("", [], 1.0)` returned for an empty store, zero
matches, or a store failure. -/
def SENTINEL : SearchOut := ⟨[], [], 1⟩

/-- The separator `"\n\n---\n\n"` joining retrieved documents. -/
def SEP : List Char := "\n\n---\n\n".toList

/-- Python `min(distances)` (`1.0` guards the empty case, as in
`min(distances) if distances else 1.0`). -/
def pyMin : List ℚ → ℚ
  | [] => 1
  | d :: ds => ds.foldl min d

/-- `KnowledgeBase.search`: the second component records whether the
store was queried at all.  `list(set(...))` is modelled by `List.dedup`
(the iteration order of a Python set is unspecified; the claims only use
membership and duplicate-freeness). -/
def kb_search (count : Nat) (qr : Except Unit QueryOut) : SearchOut × Bool :=
  if count = 0 then (SENTINEL, false)
  else
    match qr with
    | Except.error _ => (SENTINEL, true)
    | Except.ok r =>
      if r.documents = [] then (SENTINEL, true)
      else
        (⟨List.intercalate SEP r.documents,
          (r.metadatas.filterMap
            (fun m => m.bind (fun s => if s = [] then none else some s))).dedup,
          pyMin r.distances⟩, true)

/-! ## The `/chat` and `/chat/stream` handlers (routes.py) -/

/-- The canned off-topic refusal text (`OFF_TOPIC_RESPONSE`). -/
def OFF_TOPIC_RESPONSE : List Char :=
  ("This question falls outside my area of knowledge. " ++
   "I can help with mantras, meditation, yoga, tantra, and spiritual teachings from the scriptures.").toList

/-- The fixed off-topic `ChatResponse`: canned text, empty context
preview, empty source list. -/
def offTopicChatResponse : ChatResponse := ⟨OFF_TOPIC_RESPONSE, [], []⟩

/-- The generic client-facing message of the streaming error event. -/
def STREAM_ERROR_MSG : List Char :=
  "An error occurred while generating the response.".toList

/-- The synchronous `/chat` handler on a request state: cache lookup,
retrieval result `sr`, relevance gate against the threshold `θ`, then
either the cached off-topic answer or generation through `gen`.  The
third component records whether `GenerationProvider.generate` (through
`AIBrain.generate_response`) was called. -/
def chat (H : List Char → List Char) (θ : ℚ) (st : CacheState) (now : Int)
    (sr : SearchOut) (gen : List Char → List Char → List Char) (q : List Char) :
    ChatResponse × CacheState × Bool :=
  match cacheGet H st now q with
  | (some r, st₁) => (r, st₁, false)
  | (none, st₁) =>
    if θ < sr.bestDistance ∨ sr.context = [] then
      (offTopicChatResponse, cacheSet H st₁ now q offTopicChatResponse, false)
    else
      let ai := gen q sr.context
      let preview :=
        if 200 < sr.context.length then sr.context.take 200 ++ ("...".toList)
        else sr.context
      let resp : ChatResponse := ⟨ai, preview, sr.sources⟩
      (resp, cacheSet H st₁ now q resp, true)

/-- One server-sent event of `/chat/stream`. -/
inductive SSEvent where
  | chunk (s : List Char)
  | done (sources : List (List Char))
  | error (msg : List Char)
deriving DecidableEq

/-- The `/chat/stream` handler: the relevance gate mirrors `/chat`; the
streaming provider is abstracted to the deltas it yields and whether it
raises after them (an exception mid-stream aborts the `for` loop and the
`except` branch emits the generic error event instead of the completion
event).  The two trailing booleans record whether `ResponseCache.get`,
respectively `ResponseCache.set`, was invoked anywhere in the handler:
the source never touches the cache on this path. -/
def chat_stream (θ : ℚ) (sr : SearchOut) (deltas : List (List Char)) (fails : Bool) :
    List SSEvent × Bool × Bool :=
  if θ < sr.bestDistance ∨ sr.context = [] then
    ([SSEvent.chunk OFF_TOPIC_RESPONSE, SSEvent.done []], false, false)
  else
    ((deltas.map SSEvent.chunk) ++
      (if fails then [SSEvent.error STREAM_ERROR_MSG] else [SSEvent.done sr.sources]),
     false, false)

/-! ## Concrete inputs used by counterexamples and witnesses -/

/-- 49 `a`s, one space, 70 `b`s (120 characters).  With
`chunk_size = 100`, `overlap = 50` the first window snaps to the space at
index 49, so `end = 50` and the cursor moves back to `50 - 50 = 0`:
the loop never terminates. -/
def nontermText : List Char :=
  List.replicate 49 'a' ++ [' '] ++ List.replicate 70 'b'

/-- 58 `a`s, `". "`, 10 `b`s (70 characters).  With `chunk_size = 60` the
sentence branch sets `end = search_start + match_end + 1 = 61`, one past
the raw cut, so the first chunk has 61 > 60 characters. -/
def overshootText : List Char :=
  List.replicate 58 'a' ++ ['.', ' '] ++ List.replicate 10 'b'

/-- 60 `a`s followed by 60 spaces: 120 characters, longer than a
`chunk_size` of 100, yet `chunk_text` strips the text first and the
stripped text fits in one chunk. -/
def padText : List Char := List.replicate 60 'a' ++ List.replicate 60 ' '

/-- 58 `a`s, `". b"`: 61 characters, already stripped, one longer than a
`chunk_size` of 60 — the sentence snap sets `end = 61 = len(text)` and a
single 61-character chunk is produced. -/
def text61 : List Char := List.replicate 58 'a' ++ ['.', ' ', 'b']

/-- Witness for the amended multi-chunk theorem: a 70-character text with
`chunk_size = 60`, `overlap = 0`. -/
def multiText : List Char := List.replicate 30 'a' ++ [' '] ++ List.replicate 39 'b'

/-- A concrete two-document query result with a duplicated source. -/
def kbDemo : QueryOut :=
  ⟨["d1".toList, "d2".toList], [some "s1".toList, some "s1".toList, none],
    [3/10, 1/10]⟩

/-- `q'` differs from `q` only in letter case and/or leading-or-trailing
whitespace: both are a core with whitespace padding, and the cores agree
after lowercasing. -/
def CaseWsVariant (q q' : List Char) : Prop :=
  ∃ p₁ s₁ p₂ s₂ c₁ c₂,
    (∀ c ∈ p₁, pyWs c = true) ∧ (∀ c ∈ s₁, pyWs c = true) ∧
    (∀ c ∈ p₂, pyWs c = true) ∧ (∀ c ∈ s₂, pyWs c = true) ∧
    q = p₁ ++ c₁ ++ s₁ ∧ q' = p₂ ++ c₂ ++ s₂ ∧
    c₁.map pyLower = c₂.map pyLower

/-- An empty cache with capacity 100 and TTL 3600. -/
def emptyCache : CacheState := ⟨[], 0, 0, 100, 3600⟩

/-- A concrete cached answer. -/
def demoAnswer : ChatResponse := ⟨"om".toList, [], []⟩

/-- The ten `get` calls of the hit-rate example: three distinct unseen
questions (misses), then seven repeats of the cached one (hits). -/
def c8questions : List (List Char) :=
  ["x1".toList, "x2".toList, "x3".toList, "q".toList, "q".toList,
   "q".toList, "q".toList, "q".toList, "q".toList, "q".toList]

/-- The cache state after `set("q", a)` and the ten `get` calls. -/
def c8run : CacheState :=
  c8questions.foldl (fun s q => (cacheGet id s 0 q).2)
    (cacheSet id emptyCache 0 "q".toList demoAnswer)

/-- A retrieval result with distance 0.9 (off-topic). -/
def demoSearchOff : SearchOut := ⟨"ctx".toList, ["s".toList], 9/10⟩

/-- A retrieval result with distance 0.5 (on-topic). -/
def demoSearchOn : SearchOut := ⟨"ctx".toList, ["s".toList], 1/2⟩

/-- A concrete generator. -/
def demoGen : List Char → List Char → List Char := fun _ _ => "resp".toList

/-! ## Lemmas: boundary scanners -/

/-- Any position returned by `scan2` either came in through the
accumulator or lies in `(i, i + length]`. -/
lemma scan2_some_bound (p : Char → Char → Bool) :
    ∀ (l : List Char) (i : Nat) (skip : Bool) (acc : Option Nat) (k : Nat),
      scan2 p l i skip acc = some k →
      acc = some k ∨ (i + 1 ≤ k ∧ k ≤ i + l.length) := by
  intro l
  induction l with
  | nil => intro i skip acc k h; exact Or.inl h
  | cons c rest ih =>
    intro i skip acc k h
    cases skip with
    | true =>
      rw [show scan2 p (c :: rest) i true acc = scan2 p rest (i + 1) false acc
          from rfl] at h
      rcases ih (i + 1) false acc k h with h' | h'
      · exact Or.inl h'
      · exact Or.inr ⟨by omega, by simp only [List.length_cons] at *; omega⟩
    | false =>
      cases rest with
      | nil => exact Or.inl h
      | cons c2 r =>
        rw [show scan2 p (c :: c2 :: r) i false acc =
            if p c c2 then scan2 p (c2 :: r) (i + 1) true (some (i + 2))
            else scan2 p (c2 :: r) (i + 1) false acc from rfl] at h
        by_cases hp : p c c2
        · rw [if_pos hp] at h
          rcases ih (i + 1) true (some (i + 2)) k h with h' | h'
          · have : k = i + 2 := by injection h'.symm
            exact Or.inr ⟨by omega, by simp only [List.length_cons] at *; omega⟩
          · exact Or.inr ⟨by omega, by simp only [List.length_cons] at *; omega⟩
        · rw [if_neg hp] at h
          rcases ih (i + 1) false acc k h with h' | h'
          · exact Or.inl h'
          · exact Or.inr ⟨by omega, by simp only [List.length_cons] at *; omega⟩

/-- Same bound for the single-character whitespace scanner. -/
lemma lastWsEnd_some_bound :
    ∀ (l : List Char) (i : Nat) (acc : Option Nat) (k : Nat),
      lastWsEnd l i acc = some k →
      acc = some k ∨ (i + 1 ≤ k ∧ k ≤ i + l.length) := by
  intro l
  induction l with
  | nil => intro i acc k h; exact Or.inl h
  | cons c rest ih =>
    intro i acc k h
    simp only [lastWsEnd] at h
    rcases ih (i + 1) (if pyWs c then some (i + 1) else acc) k h with h' | h'
    · by_cases hw : pyWs c
      · rw [if_pos hw] at h'
        have : k = i + 1 := by injection h'.symm
        exact Or.inr ⟨by omega, by simp only [List.length_cons] at *; omega⟩
      · rw [if_neg hw] at h'; exact Or.inl h'
    · exact Or.inr ⟨by omega, by simp only [List.length_cons] at *; omega⟩

/-- A paragraph-break position is in `[1, length]`. -/
lemma lastParaEnd_bound {w : List Char} {k : Nat} (h : lastParaEnd w = some k) :
    1 ≤ k ∧ k ≤ w.length := by
  rcases scan2_some_bound _ w 0 false none k h with h' | h'
  · cases h'
  · simpa using h'

/-- A sentence-end position is in `[1, length]`. -/
lemma lastSentEnd_bound {w : List Char} {k : Nat} (h : lastSentEnd w = some k) :
    1 ≤ k ∧ k ≤ w.length := by
  rcases scan2_some_bound _ w 0 false none k h with h' | h'
  · cases h'
  · simpa using h'

/-- A whitespace position is in `[1, length]`. -/
lemma lastWsEnd_bound {w : List Char} {k : Nat} (h : lastWsEnd w 0 none = some k) :
    1 ≤ k ∧ k ≤ w.length := by
  rcases lastWsEnd_some_bound w 0 none k h with h' | h'
  · cases h'
  · simpa using h'

/-! ## Lemmas: Python slices -/

/-- A slice `l[a:b]` with `a ≤ b` has at most `b - a` characters. -/
lemma pySlice_length_le (l : List Char) (a b : Int) (h : a ≤ b) :
    ((pySlice l a b).length : Int) ≤ b - a := by
  simp only [pySlice, sliceIdx, List.length_take, List.length_drop]
  split_ifs <;> omega

/-- When the right end reaches past the text, `l[a:b]` is the suffix of
`l` from the resolved left index. -/
lemma pySlice_suffix (l : List Char) (a b : Int) (hb : (l.length : Int) ≤ b) :
    pySlice l a b = l.drop (sliceIdx l.length a).toNat := by
  have hbi : sliceIdx (l.length : Int) b = (l.length : Int) := by
    simp only [sliceIdx]; split_ifs <;> omega
  simp only [pySlice, hbi]
  apply List.take_of_length_le
  simp only [List.length_drop, sliceIdx]
  split_ifs <;> omega

/-- The resolved left index of a slice starting strictly inside the text
is strictly inside the text. -/
lemma sliceIdx_lt (l : List Char) (a : Int) (ha : a < (l.length : Int))
    (hn : 0 < l.length) : (sliceIdx l.length a).toNat < l.length := by
  simp only [sliceIdx]; split_ifs <;> omega

/-- A slice `l[0:b]` is a `take`. -/
lemma pySlice_zero (l : List Char) (b : Int) :
    pySlice l 0 b = l.take (sliceIdx l.length b).toNat := by
  have h0 : sliceIdx (l.length : Int) 0 = 0 := by
    simp only [sliceIdx]; split_ifs <;> omega
  simp only [pySlice, h0, Int.sub_zero, Int.toNat_zero, List.drop_zero]

/-! ## Lemmas: `pyStrip` -/

/-- Characters survive `dropWhile` only as a suffix. -/
lemma dropWhile_eq_drop (p : Char → Bool) (l : List Char) :
    ∃ k, l.dropWhile p = l.drop k ∧ k ≤ l.length := by
  induction l with
  | nil => exact ⟨0, rfl, by simp⟩
  | cons c rest ih =>
    by_cases hp : p c
    · obtain ⟨k, hk, hkle⟩ := ih
      exact ⟨k + 1, by simpa [List.dropWhile_cons, hp], by simpa using hkle⟩
    · exact ⟨0, by simp [List.dropWhile_cons, hp], by simp⟩

/-- `dropWhile` shortens. -/
lemma length_dropWhile_le (p : Char → Bool) (l : List Char) :
    (l.dropWhile p).length ≤ l.length := by
  obtain ⟨k, hk, _⟩ := dropWhile_eq_drop p l
  rw [hk, List.length_drop]; omega

/-- Stripping shortens. -/
lemma pyStrip_length_le (l : List Char) : (pyStrip l).length ≤ l.length := by
  simp only [pyStrip, List.length_reverse]
  calc ((l.dropWhile pyWs).reverse.dropWhile pyWs).length
      ≤ (l.dropWhile pyWs).reverse.length := length_dropWhile_le _ _
    _ ≤ l.length := by rw [List.length_reverse]; exact length_dropWhile_le _ _

/-- The strip of a list is empty exactly when it is all whitespace. -/
lemma pyStrip_eq_nil_iff (l : List Char) :
    pyStrip l = [] ↔ ∀ c ∈ l, pyWs c = true := by
  simp only [pyStrip, List.reverse_eq_nil_iff, List.dropWhile_eq_nil_iff,
    List.mem_reverse]
  constructor
  · intro h c hc
    have := List.takeWhile_append_dropWhile pyWs l
    rw [← this] at hc
    rcases List.mem_append.mp hc with h' | h'
    · exact List.mem_takeWhile_imp h'
    · exact h c h'
  · intro h c hc
    obtain ⟨k, hk, _⟩ := dropWhile_eq_drop pyWs l
    rw [hk] at hc
    exact h c (List.mem_of_mem_drop hc)

/-- A list with a non-whitespace character does not strip to empty. -/
lemma pyStrip_ne_nil (l : List Char) (hc : ∃ c ∈ l, pyWs c = false) :
    pyStrip l ≠ [] := by
  intro h
  rw [pyStrip_eq_nil_iff] at h
  obtain ⟨c, hm, hw⟩ := hc
  rw [h c hm] at hw
  cases hw

/-- The last character of a stripped list is not whitespace. -/
lemma pyStrip_getLast?_not (l : List Char) (c : Char)
    (h : (pyStrip l).getLast? = some c) : pyWs c = false := by
  simp only [pyStrip, List.getLast?_reverse] at h
  have := List.head?_dropWhile_not pyWs (l.dropWhile pyWs).reverse
  rw [h] at this
  exact this

/-- The first character of a stripped list is not whitespace. -/
lemma pyStrip_head?_not (l : List Char) (c : Char)
    (h : (pyStrip l).head? = some c) : pyWs c = false := by
  simp only [pyStrip, List.head?_reverse] at h
  obtain ⟨k, hk, _⟩ := dropWhile_eq_drop pyWs (l.dropWhile pyWs).reverse
  rw [hk, List.getLast?_drop] at h
  by_cases hl : (l.dropWhile pyWs).reverse.length ≤ k
  · rw [if_pos hl] at h; cases h
  · rw [if_neg hl, List.getLast?_reverse] at h
    have := List.head?_dropWhile_not pyWs l
    rw [h] at this
    exact this

/-- `dropWhile` is the identity when the head does not satisfy the
predicate. -/
lemma dropWhile_eq_self_of_head (p : Char → Bool) (l : List Char)
    (h : ∀ c, l.head? = some c → p c = false) : l.dropWhile p = l := by
  cases l with
  | nil => rfl
  | cons c rest => simp [List.dropWhile_cons, h c rfl]

/-- Stripping is idempotent. -/
lemma pyStrip_idem (l : List Char) : pyStrip (pyStrip l) = pyStrip l := by
  have h1 : (pyStrip l).dropWhile pyWs = pyStrip l :=
    dropWhile_eq_self_of_head _ _ (fun c hc => pyStrip_head?_not l c hc)
  have h2 : (pyStrip l).reverse.dropWhile pyWs = (pyStrip l).reverse :=
    dropWhile_eq_self_of_head _ _
      (fun c hc => pyStrip_getLast?_not l c (by rwa [List.head?_reverse] at hc))
  show ((((pyStrip l).dropWhile pyWs).reverse.dropWhile pyWs)).reverse = pyStrip l
  rw [h1, h2, List.reverse_reverse]

/-- Membership from `getLast?`. -/
lemma mem_of_getLast?_eq {l : List Char} {c : Char} (h : l.getLast? = some c) :
    c ∈ l := by
  induction l with
  | nil => cases h
  | cons a rest ih =>
    cases rest with
    | nil =>
      simp only [List.getLast?_singleton, Option.some_inj] at h
      simp [h]
    | cons b r =>
      rw [List.getLast?_cons_cons] at h
      exact List.mem_cons_of_mem a (ih h)

/-! ## Lemmas: `chunkEnd` bounds -/

/-- The snapped end lies strictly beyond the cursor, at most one past the
raw cut (the sentence branch adds 1 to the match end), and — under the
strict-advance configurations `ov ≤ max (cs - 200) 0` — at least
`ov + 1` beyond the cursor. -/
lemma chunkEnd_bounds (t : List Char) (cs s : Int) (hcs : 1 ≤ cs) :
    s < chunkEnd t cs s ∧ chunkEnd t cs s ≤ s + cs + 1 ∧
      ∀ ov, 0 ≤ ov → ov ≤ max (cs - 200) 0 → s + ov + 1 ≤ chunkEnd t cs s := by
  unfold chunkEnd
  simp only
  by_cases h : s + cs < (t.length : Int)
  · rw [if_pos h]
    have hss : max (s + cs - 200) s ≤ s + cs := by omega
    have hw : ((pySlice t (max (s + cs - 200) s) (s + cs)).length : Int)
        ≤ (s + cs) - max (s + cs - 200) s := pySlice_length_le _ _ _ hss
    rcases hp : lastParaEnd (pySlice t (max (s + cs - 200) s) (s + cs)) with _ | p
    · rcases hq : lastSentEnd (pySlice t (max (s + cs - 200) s) (s + cs)) with _ | q
      · rcases hm : lastWsEnd (pySlice t (max (s + cs - 200) s) (s + cs)) 0 none with _ | m
        · simp only [hp, hq, hm]
          refine ⟨by omega, by omega, fun ov h1 h2 => by omega⟩
        · simp only [hp, hq, hm]
          have hb := lastWsEnd_bound hm
          refine ⟨by omega, by omega, fun ov h1 h2 => by omega⟩
      · simp only [hp, hq]
        have hb := lastSentEnd_bound hq
        refine ⟨by omega, by omega, fun ov h1 h2 => by omega⟩
    · simp only [hp]
      have hb := lastParaEnd_bound hp
      refine ⟨by omega, by omega, fun ov h1 h2 => by omega⟩
  · rw [if_neg h]
    refine ⟨by omega, by omega, fun ov h1 h2 => by omega⟩

/-- The snapped end is strictly beyond the cursor. -/
lemma chunkEnd_gt (t : List Char) (cs s : Int) (hcs : 1 ≤ cs) :
    s < chunkEnd t cs s := (chunkEnd_bounds t cs s hcs).1

/-- The snapped end is at most one past the raw `start + chunk_size` cut. -/
lemma chunkEnd_le (t : List Char) (cs s : Int) (hcs : 1 ≤ cs) :
    chunkEnd t cs s ≤ s + cs + 1 := (chunkEnd_bounds t cs s hcs).2.1

/-! ## Lemmas: the carving loop -/

/-- Once the cursor reaches the text length the loop exits with its
accumulator, whatever fuel is left. -/
lemma chunkLoop_exit (t : List Char) (cs ov : Int) (fuel : Nat) (s : Int)
    (acc : List (List Char)) (h : ¬ s < (t.length : Int)) :
    chunkLoop t cs ov fuel s acc = some acc := by
  cases fuel <;> simp [chunkLoop, h]

/-- One loop iteration. -/
lemma chunkLoop_step (t : List Char) (cs ov : Int) (fuel : Nat) (s : Int)
    (acc : List (List Char)) (h : s < (t.length : Int)) :
    chunkLoop t cs ov (fuel + 1) s acc =
      chunkLoop t cs ov fuel (nextStart t cs ov s) (pushChunk t cs s acc) := by
  simp [chunkLoop, h]

/-- `chunkLoopW` exit. -/
lemma chunkLoopW_exit (t : List Char) (cs ov : Int) (fuel : Nat) (s : Int)
    (acc : List (Int × Int)) (h : ¬ s < (t.length : Int)) :
    chunkLoopW t cs ov fuel s acc = some acc := by
  cases fuel <;> simp [chunkLoopW, h]

/-- `chunkLoopW` step. -/
lemma chunkLoopW_step (t : List Char) (cs ov : Int) (fuel : Nat) (s : Int)
    (acc : List (Int × Int)) (h : s < (t.length : Int)) :
    chunkLoopW t cs ov (fuel + 1) s acc =
      chunkLoopW t cs ov fuel (nextStart t cs ov s) (pushWin t cs s acc) := by
  simp [chunkLoopW, h]

/-- Under strict-advance configurations the loop terminates within
`len - start` iterations. -/
lemma chunkLoop_isSome (t : List Char) (cs ov : Int) (hcs : 1 ≤ cs)
    (hov : 0 ≤ ov) (hreg : ov ≤ max (cs - 200) 0) :
    ∀ (fuel : Nat) (s : Int) (acc : List (List Char)),
      ((t.length : Int) - s).toNat ≤ fuel →
      (chunkLoop t cs ov fuel s acc).isSome := by
  intro fuel
  induction fuel with
  | zero =>
    intro s acc h
    have hs : ¬ s < (t.length : Int) := by omega
    rw [chunkLoop_exit t cs ov 0 s acc hs]
    rfl
  | succ f ih =>
    intro s acc h
    by_cases hs : s < (t.length : Int)
    · rw [chunkLoop_step t cs ov f s acc hs]
      apply ih
      have hadv := (chunkEnd_bounds t cs s hcs).2.2 ov hov hreg
      unfold nextStart
      by_cases he : chunkEnd t cs s < (t.length : Int)
      · rw [if_pos he]; omega
      · rw [if_neg he]; omega
    · rw [chunkLoop_exit t cs ov (f + 1) s acc hs]
      rfl

/-- Every chunk the loop ever appends is stripped and has at most
`chunk_size + 1` characters. -/
lemma chunkLoop_chunks (t : List Char) (cs ov : Int) (hcs : 1 ≤ cs) :
    ∀ (fuel : Nat) (s : Int) (acc r : List (List Char)),
      (∀ c ∈ acc, pyStrip c = c ∧ (c.length : Int) ≤ cs + 1) →
      chunkLoop t cs ov fuel s acc = some r →
      ∀ c ∈ r, pyStrip c = c ∧ (c.length : Int) ≤ cs + 1 := by
  intro fuel
  induction fuel with
  | zero =>
    intro s acc r hacc h
    by_cases hs : s < (t.length : Int)
    · rw [chunkLoop] at h; rw [if_pos hs] at h; cases h
    · rw [chunkLoop_exit t cs ov 0 s acc hs] at h
      injection h with h; subst h; exact hacc
  | succ f ih =>
    intro s acc r hacc h
    by_cases hs : s < (t.length : Int)
    · rw [chunkLoop_step t cs ov f s acc hs] at h
      refine ih _ _ _ ?_ h
      intro c hc
      unfold pushChunk at hc
      by_cases hempty : pyStrip (pySlice t s (chunkEnd t cs s)) = []
      · rw [if_pos hempty] at hc; exact hacc c hc
      · rw [if_neg hempty] at hc
        rcases List.mem_append.mp hc with h' | h'
        · exact hacc c h'
        · have hceq : c = pyStrip (pySlice t s (chunkEnd t cs s)) := by
            simpa using h'
          subst hceq
          refine ⟨pyStrip_idem _, ?_⟩
          have h1 : ((pyStrip (pySlice t s (chunkEnd t cs s))).length : Int)
              ≤ ((pySlice t s (chunkEnd t cs s)).length : Int) := by
            exact_mod_cast pyStrip_length_le _
          have h2 := pySlice_length_le t s (chunkEnd t cs s)
            (le_of_lt (chunkEnd_gt t cs s hcs))
          have h3 := chunkEnd_le t cs s hcs
          omega
    · rw [chunkLoop_exit t cs ov (f + 1) s acc hs] at h
      injection h with h; subst h; exact hacc

/-! ## Concrete texts used by counterexamples and witnesses -/

/-- On `nontermText` the carving loop is stuck at cursor 0 for every
fuel. -/
lemma nontermText_loop_none :
    ∀ (fuel : Nat) (acc : List (List Char)),
      chunkLoop nontermText 100 50 fuel 0 acc = none := by
  intro fuel
  induction fuel with
  | zero =>
    intro acc
    rw [chunkLoop, if_pos (by decide : (0 : Int) < (nontermText.length : Int))]
  | succ f ih =>
    intro acc
    rw [chunkLoop_step nontermText 100 50 f 0 acc
      (by decide : (0 : Int) < (nontermText.length : Int))]
    rw [show nextStart nontermText 100 50 0 = 0 from by decide]
    exact ih _

/-- C2 counterexample: `nontermText` with `chunk_size = 100`,
`overlap = 50` is a valid configuration (`0 ≤ overlap < chunk_size`,
`0 < chunk_size`, text of 120 ≥ 50 characters), yet `chunk_text` never
terminates: the cursor is moved back below the previous cursor and the
loop revisits cursor 0 forever. -/
theorem chunk_text_nonterm_cx :
    (0 : Int) < 100 ∧ (0 : Int) ≤ 50 ∧ (50 : Int) < 100 ∧
      50 ≤ nontermText.length ∧
      ¬ ∃ (fuel : Nat) (r : List (List Char)),
          chunk_text nontermText 100 50 fuel = some r := by
  refine ⟨by decide, by decide, by decide, by decide, ?_⟩
  rintro ⟨fuel, r, h⟩
  unfold chunk_text at h
  rw [if_neg (by decide : ¬ nontermText.length < 50)] at h
  simp only at h
  rw [if_neg (by decide : ¬ ((pyStrip nontermText).length : Int) ≤ 100)] at h
  rw [show pyStrip nontermText = nontermText from by decide] at h
  rw [nontermText_loop_none fuel []] at h
  cases h

/-- C2 (amended): termination holds for every text under the
strict-advance configurations `overlap ≤ max (chunk_size − 200, 0)`
(satisfied by the defaults 1000/200): every snapped end then exceeds the
cursor by at least `overlap + 1`, the final cursor update clamps to the
text length, and the loop finishes within `len(text) + 1` iterations. -/
theorem chunk_text_terminates (t : List Char) (cs ov : Int)
    (hcs : 1 ≤ cs) (hov : 0 ≤ ov) (hreg : ov ≤ max (cs - 200) 0) :
    (∀ (u : List Char) (s : Int), s + ov + 1 ≤ chunkEnd u cs s) ∧
    (∀ s : Int, ¬ chunkEnd t cs s < (t.length : Int) →
      nextStart t cs ov s = (t.length : Int)) ∧
    (chunk_text t cs ov (t.length + 1)).isSome := by
  refine ⟨fun u s => (chunkEnd_bounds u cs s hcs).2.2 ov hov hreg,
    fun s h => by rw [nextStart, if_neg h], ?_⟩
  unfold chunk_text
  by_cases h50 : t.length < 50
  · rw [if_pos h50]; rfl
  · rw [if_neg h50]
    simp only
    by_cases hfit : ((pyStrip t).length : Int) ≤ cs
    · rw [if_pos hfit]; rfl
    · rw [if_neg hfit]
      apply chunkLoop_isSome (pyStrip t) cs ov hcs hov hreg
      have := pyStrip_length_le t
      omega

/-- Witness for the amended termination theorem at `chunk_size = 60`,
`overlap = 0` on a 70-character text. -/
theorem chunk_text_terminates_witness :
    (1 : Int) ≤ 60 ∧ (0 : Int) ≤ 0 ∧ (0 : Int) ≤ max (60 - 200) 0 ∧
      (chunk_text overshootText 60 0 (overshootText.length + 1)).isSome :=
  ⟨by decide, by decide, by decide,
    (chunk_text_terminates overshootText 60 0 (by decide) (by decide)
      (by decide)).2.2⟩

/-- C9 counterexample: with `chunk_size = 60`, `overlap = 10` the first
chunk of `overshootText` has 61 characters — the target size is not a
hard upper bound. -/
theorem chunk_text_overshoot_cx :
    chunk_text overshootText 60 10 71 =
      some [List.replicate 58 'a' ++ ['.', ' ', 'b'],
            List.replicate 7 'a' ++ ['.', ' '] ++ List.replicate 10 'b'] ∧
    (List.replicate 58 'a' ++ ['.', ' ', 'b']).length = 61 ∧
    ¬ (((List.replicate 58 'a' ++ ['.', ' ', 'b']).length : Int) ≤ 60) := by
  refine ⟨by decide, by decide, by decide⟩

/-- C9 (amended): every chunk `chunk_text` ever returns is equal to its
own whitespace-stripped form, and has at most `chunk_size + 1`
characters (the sentence-boundary branch can exceed the target by exactly
one). -/
theorem chunk_text_chunks (t : List Char) (cs ov : Int) (fuel : Nat)
    (r : List (List Char)) (hcs : 1 ≤ cs)
    (h : chunk_text t cs ov fuel = some r) :
    ∀ c ∈ r, pyStrip c = c ∧ (c.length : Int) ≤ cs + 1 := by
  unfold chunk_text at h
  by_cases h50 : t.length < 50
  · rw [if_pos h50] at h
    injection h with h
    subst h
    intro c hc
    cases hc
  · rw [if_neg h50] at h
    simp only at h
    by_cases hfit : ((pyStrip t).length : Int) ≤ cs
    · rw [if_pos hfit] at h
      injection h with h
      subst h
      intro c hc
      have hc' : c = pyStrip t := by simpa using hc
      subst hc'
      exact ⟨pyStrip_idem t, by omega⟩
    · rw [if_neg hfit] at h
      exact chunkLoop_chunks (pyStrip t) cs ov hcs fuel 0 [] r
        (by intro c hc; cases hc) h

/-- Witness for the amended chunk-shape theorem on a concrete run. -/
theorem chunk_text_chunks_witness :
    (1 : Int) ≤ 60 ∧
    ∀ c ∈ [List.replicate 58 'a' ++ ['.', ' ', 'b'],
           List.replicate 7 'a' ++ ['.', ' '] ++ List.replicate 10 'b'],
      pyStrip c = c ∧ (c.length : Int) ≤ 60 + 1 :=
  ⟨by decide,
    chunk_text_chunks overshootText 60 10 71 _ (by decide) (by decide)⟩

/-! ## Lemmas: the instrumented loop mirrors the real one -/

/-- Membership from `head?`. -/
lemma mem_of_head?_eq {l : List Char} {c : Char} (h : l.head? = some c) :
    c ∈ l := by
  cases l with
  | nil => cases h
  | cons a rest =>
    injection h with h
    simp [h]

/-- `chunkLoop` is the window loop followed by rendering. -/
lemma chunkLoop_eq_loopW (t : List Char) (cs ov : Int) :
    ∀ (fuel : Nat) (s : Int) (accW : List (Int × Int)),
      chunkLoop t cs ov fuel s (accW.map (renderW t)) =
        (chunkLoopW t cs ov fuel s accW).map (List.map (renderW t)) := by
  intro fuel
  induction fuel with
  | zero =>
    intro s accW
    by_cases hs : s < (t.length : Int)
    · rw [chunkLoop, chunkLoopW, if_pos hs, if_pos hs]; rfl
    · rw [chunkLoop_exit _ _ _ _ _ _ hs, chunkLoopW_exit _ _ _ _ _ _ hs]; rfl
  | succ f ih =>
    intro s accW
    by_cases hs : s < (t.length : Int)
    · rw [chunkLoop_step _ _ _ _ _ _ hs, chunkLoopW_step _ _ _ _ _ _ hs]
      have hpush : pushChunk t cs s (accW.map (renderW t)) =
          (pushWin t cs s accW).map (renderW t) := by
        unfold pushChunk pushWin
        by_cases he : pyStrip (pySlice t s (chunkEnd t cs s)) = []
        · rw [if_pos he, if_pos he]
        · rw [if_neg he, if_neg he]
          simp [renderW]
      rw [hpush]
      exact ih _ _
    · rw [chunkLoop_exit _ _ _ _ _ _ hs, chunkLoopW_exit _ _ _ _ _ _ hs]; rfl

/-- Every window ever recorded renders to a non-empty chunk (the loop only
appends non-empty stripped chunks). -/
lemma chunkLoopW_render_ne (t : List Char) (cs ov : Int) :
    ∀ (fuel : Nat) (s : Int) (accW r : List (Int × Int)),
      (∀ w ∈ accW, renderW t w ≠ []) →
      chunkLoopW t cs ov fuel s accW = some r →
      ∀ w ∈ r, renderW t w ≠ [] := by
  intro fuel
  induction fuel with
  | zero =>
    intro s accW r hacc h
    by_cases hs : s < (t.length : Int)
    · rw [chunkLoopW, if_pos hs] at h; cases h
    · rw [chunkLoopW_exit _ _ _ _ _ _ hs] at h
      injection h with h; subst h; exact hacc
  | succ f ih =>
    intro s accW r hacc h
    by_cases hs : s < (t.length : Int)
    · rw [chunkLoopW_step _ _ _ _ _ _ hs] at h
      refine ih _ _ _ ?_ h
      intro w hw
      unfold pushWin at hw
      by_cases he : pyStrip (pySlice t s (chunkEnd t cs s)) = []
      · rw [if_pos he] at hw; exact hacc w hw
      · rw [if_neg he] at hw
        rcases List.mem_append.mp hw with h' | h'
        · exact hacc w h'
        · have hw' : w = (s, chunkEnd t cs s) := by simpa using h'
          subst hw'
          exact he
    · rw [chunkLoopW_exit _ _ _ _ _ _ hs] at h
      injection h with h; subst h; exact hacc

/-- A completed run that is still inside the text records at least one
more window before exiting: the loop can only exit after an iteration
whose end reached the text length, and the suffix window of that
iteration contains the final (non-whitespace) character. -/
lemma chunkLoopW_grows (t : List Char) (cs ov : Int) (hov : 0 ≤ ov)
    (hn : 0 < t.length)
    (hlast : ∀ c, t.getLast? = some c → pyWs c = false) :
    ∀ (fuel : Nat) (s : Int) (accW r : List (Int × Int)),
      s < (t.length : Int) →
      chunkLoopW t cs ov fuel s accW = some r →
      accW.length + 1 ≤ r.length := by
  intro fuel
  induction fuel with
  | zero =>
    intro s accW r hs h
    rw [chunkLoopW, if_pos hs] at h; cases h
  | succ f ih =>
    intro s accW r hs h
    rw [chunkLoopW_step _ _ _ _ _ _ hs] at h
    by_cases he : chunkEnd t cs s < (t.length : Int)
    · have hs' : nextStart t cs ov s < (t.length : Int) := by
        rw [nextStart, if_pos he]; omega
      have hgrow := ih _ _ _ hs' h
      have hlen : accW.length ≤ (pushWin t cs s accW).length := by
        unfold pushWin
        by_cases hem : pyStrip (pySlice t s (chunkEnd t cs s)) = []
        · rw [if_pos hem]
        · rw [if_neg hem]; simp
      omega
    · have hne : pyStrip (pySlice t s (chunkEnd t cs s)) ≠ [] := by
        have hb : (t.length : Int) ≤ chunkEnd t cs s := by omega
        rw [pySlice_suffix t s _ hb]
        have ha := sliceIdx_lt t s hs hn
        have ht : t ≠ [] := by
          intro hteq; rw [hteq] at hn; cases hn
        obtain ⟨c, hc⟩ := Option.isSome_iff_exists.mp
          (List.getLast?_isSome.mpr ht)
        apply pyStrip_ne_nil
        refine ⟨c, ?_, hlast c hc⟩
        apply mem_of_getLast?_eq
        rw [List.getLast?_drop, if_neg (by omega)]
        exact hc
      have hpw : pushWin t cs s accW = accW ++ [(s, chunkEnd t cs s)] := by
        rw [pushWin, if_neg hne]
      have hns : nextStart t cs ov s = (t.length : Int) := by
        rw [nextStart, if_neg he]
      rw [hpw, hns, chunkLoopW_exit _ _ _ _ _ _ (lt_irrefl _)] at h
      injection h with h
      subst h
      simp

/-- Under strict-advance configurations, consecutive recorded windows
share at most `ov` positions: each new window starts at most `ov` before
the previous window's end. -/
lemma chunkLoopW_chain (t : List Char) (cs ov : Int) (hcs : 1 ≤ cs)
    (hov : 0 ≤ ov) (hreg : ov ≤ max (cs - 200) 0) :
    ∀ (fuel : Nat) (s : Int) (accW r : List (Int × Int)),
      List.Chain' (fun w1 w2 => w1.2 - w2.1 ≤ ov) accW →
      (∀ w, accW.getLast? = some w → w.2 ≤ s + ov) →
      chunkLoopW t cs ov fuel s accW = some r →
      List.Chain' (fun w1 w2 => w1.2 - w2.1 ≤ ov) r := by
  intro fuel
  induction fuel with
  | zero =>
    intro s accW r hchain hinv h
    by_cases hs : s < (t.length : Int)
    · rw [chunkLoopW, if_pos hs] at h; cases h
    · rw [chunkLoopW_exit _ _ _ _ _ _ hs] at h
      injection h with h; subst h; exact hchain
  | succ f ih =>
    intro s accW r hchain hinv h
    by_cases hs : s < (t.length : Int)
    · rw [chunkLoopW_step _ _ _ _ _ _ hs] at h
      have hadv : s + ov + 1 ≤ chunkEnd t cs s :=
        (chunkEnd_bounds t cs s hcs).2.2 ov hov hreg
      by_cases hem : pyStrip (pySlice t s (chunkEnd t cs s)) = []
      · have hpw : pushWin t cs s accW = accW := by rw [pushWin, if_pos hem]
        rw [hpw] at h
        refine ih _ _ _ hchain ?_ h
        intro w hw
        have hw2 := hinv w hw
        rw [nextStart]
        by_cases he : chunkEnd t cs s < (t.length : Int)
        · rw [if_pos he]; omega
        · rw [if_neg he]; omega
      · have hpw : pushWin t cs s accW = accW ++ [(s, chunkEnd t cs s)] := by
          rw [pushWin, if_neg hem]
        rw [hpw] at h
        have hchain' : List.Chain' (fun w1 w2 => w1.2 - w2.1 ≤ ov)
            (accW ++ [(s, chunkEnd t cs s)]) := by
          rw [List.chain'_append]
          refine ⟨hchain, List.chain'_singleton _, ?_⟩
          intro x hx y hy
          simp only [List.head?_cons, Option.mem_def, Option.some_inj] at hy
          subst hy
          have := hinv x hx
          show x.2 - s ≤ ov
          omega
        by_cases he : chunkEnd t cs s < (t.length : Int)
        · refine ih _ _ _ hchain' ?_ h
          intro w hw
          rw [List.getLast?_concat] at hw
          injection hw with hw
          subst hw
          rw [nextStart, if_pos he]
          omega
        · have hns : nextStart t cs ov s = (t.length : Int) := by
            rw [nextStart, if_neg he]
          rw [hns, chunkLoopW_exit _ _ _ _ _ _ (lt_irrefl _)] at h
          injection h with h
          subst h
          exact hchain'
    · rw [chunkLoopW_exit _ _ _ _ _ _ hs] at h
      injection h with h; subst h; exact hchain

/-! ## C7: multi-chunk output -/

/-- C7 counterexample: `padText` has 120 ≥ 50 characters and is longer
than `chunk_size = 100`, but `chunk_text` returns exactly one chunk
(trailing whitespace is stripped before the length comparison); and
`text61` has 61 ≥ 50 characters, is longer than `chunk_size = 60` and
has no outer whitespace at all, yet also yields exactly one chunk (the
sentence snap reaches `end = len(text)`). -/
theorem chunk_text_single_cx :
    50 ≤ padText.length ∧ 100 < padText.length ∧
      chunk_text padText 100 20 121 = some [List.replicate 60 'a'] ∧
      (chunk_text padText 100 20 121).map List.length = some 1 ∧
      50 ≤ text61.length ∧ 60 < text61.length ∧ pyStrip text61 = text61 ∧
      chunk_text text61 60 10 62 = some [text61] ∧
      (chunk_text text61 60 10 62).map List.length = some 1 := by
  refine ⟨by decide, by decide, by decide, by decide, by decide, by decide,
    by decide, by decide, by decide⟩

/-- C7 (amended): for a text of at least 50 characters whose *stripped*
form is longer than `chunk_size + 1`, under strict-advance
configurations (`0 ≤ overlap ≤ max (chunk_size − 200, 0)`, satisfied by
the defaults 1000/200), every completed run returns at least two chunks,
all non-empty, and the windows the chunks were cut from overlap
pairwise by at most `overlap` characters (each window starts at most
`overlap` before the previous window's end). -/
theorem chunk_text_multi (t : List Char) (cs ov : Int) (fuel : Nat)
    (r : List (List Char)) (hcs : 1 ≤ cs) (hov : 0 ≤ ov)
    (hreg : ov ≤ max (cs - 200) 0) (h50 : 50 ≤ t.length)
    (hlong : cs + 1 < ((pyStrip t).length : Int))
    (h : chunk_text t cs ov fuel = some r) :
    2 ≤ r.length ∧ (∀ c ∈ r, c ≠ []) ∧
    ∃ ws, chunkLoopW (pyStrip t) cs ov fuel 0 [] = some ws ∧
      r = ws.map (renderW (pyStrip t)) ∧
      List.Chain' (fun w1 w2 => w1.2 - w2.1 ≤ ov) ws := by
  have h50' : ¬ t.length < 50 := by omega
  rw [chunk_text, if_neg h50'] at h
  simp only at h
  have hfit : ¬ (((pyStrip t).length : Int) ≤ cs) := by omega
  rw [if_neg hfit] at h
  have hun : 0 < (pyStrip t).length := by omega
  have hlast : ∀ c, (pyStrip t).getLast? = some c → pyWs c = false :=
    fun c hc => pyStrip_getLast?_not t c hc
  have hcorr := chunkLoop_eq_loopW (pyStrip t) cs ov fuel 0 []
  rw [show (([] : List (Int × Int)).map (renderW (pyStrip t))) = [] from rfl]
    at hcorr
  rw [hcorr] at h
  rcases hw : chunkLoopW (pyStrip t) cs ov fuel 0 [] with _ | ws
  · rw [hw] at h; cases h
  · rw [hw] at h
    injection h with h
    have hchain := chunkLoopW_chain (pyStrip t) cs ov hcs hov hreg fuel 0 [] ws
      List.chain'_nil (by intro w hw'; cases hw') hw
    have hne := chunkLoopW_render_ne (pyStrip t) cs ov fuel 0 [] ws
      (by intro w hw'; cases hw') hw
    have hlen2 : 2 ≤ ws.length := by
      cases fuel with
      | zero =>
        rw [chunkLoopW, if_pos (by omega : (0 : Int) < ((pyStrip t).length : Int))]
          at hw
        cases hw
      | succ f =>
        have h0 : (0 : Int) < ((pyStrip t).length : Int) := by omega
        rw [chunkLoopW_step _ _ _ _ _ _ h0] at hw
        have he1le := chunkEnd_le (pyStrip t) cs 0 hcs
        have he1gt := chunkEnd_gt (pyStrip t) cs 0 hcs
        have he1 : chunkEnd (pyStrip t) cs 0 < ((pyStrip t).length : Int) := by
          omega
        have hc1 : pyStrip (pySlice (pyStrip t) 0 (chunkEnd (pyStrip t) cs 0))
            ≠ [] := by
          rw [pySlice_zero]
          have hk : (sliceIdx ((pyStrip t).length : Int)
              (chunkEnd (pyStrip t) cs 0)).toNat ≠ 0 := by
            simp only [sliceIdx]
            split_ifs <;> omega
          have hhead : ((pyStrip t).take
              ((sliceIdx ((pyStrip t).length : Int)
                (chunkEnd (pyStrip t) cs 0)).toNat)).head? = (pyStrip t).head? := by
            rw [List.head?_take, if_neg hk]
          have ht : pyStrip t ≠ [] := by
            intro hteq
            rw [hteq] at hun
            cases hun
          obtain ⟨c, hc⟩ := Option.isSome_iff_exists.mp
            (by rw [List.head?_isSome]; exact ht)
          apply pyStrip_ne_nil
          refine ⟨c, ?_, ?_⟩
          · apply mem_of_head?_eq
            rw [hhead]; exact hc
          · exact pyStrip_head?_not (pyStrip t) c
              (by rw [pyStrip_idem]; exact hc)
        have hpw1 : pushWin (pyStrip t) cs 0 [] =
            [(0, chunkEnd (pyStrip t) cs 0)] := by
          rw [pushWin, if_neg hc1]; rfl
        rw [hpw1] at hw
        have hs1 : nextStart (pyStrip t) cs ov 0 < ((pyStrip t).length : Int) := by
          rw [nextStart, if_pos he1]; omega
        have := chunkLoopW_grows (pyStrip t) cs ov hov hun hlast f _ _ ws hs1 hw
        simpa using this
    refine ⟨?_, ?_, ws, rfl, h.symm, hchain⟩
    · rw [← h, List.length_map]; exact hlen2
    · intro c hc
      rw [← h] at hc
      obtain ⟨w, hwmem, hwc⟩ := List.mem_map.mp hc
      rw [← hwc]
      exact hne w hwmem

/-- Witness applying `chunk_text_multi` at `multiText`. -/
theorem chunk_text_multi_witness :
    2 ≤ [List.replicate 30 'a', List.replicate 39 'b'].length ∧
    (∀ c ∈ [List.replicate 30 'a', List.replicate 39 'b'], c ≠ []) ∧
    ∃ ws, chunkLoopW (pyStrip multiText) 60 0 71 0 [] = some ws ∧
      [List.replicate 30 'a', List.replicate 39 'b'] =
        ws.map (renderW (pyStrip multiText)) ∧
      List.Chain' (fun w1 w2 => w1.2 - w2.1 ≤ (0 : Int)) ws :=
  chunk_text_multi multiText 60 0 71 _ (by decide) (by decide) (by decide)
    (by decide) (by decide) (by decide)

/-! ## Lemmas: `pyMin` -/

/-- `foldl min` starting from `a` yields a member of `a :: ds` that is a
lower bound of `a` and of every element of `ds`. -/
lemma foldl_min_spec :
    ∀ (ds : List ℚ) (a : ℚ),
      ds.foldl min a ∈ a :: ds ∧ ds.foldl min a ≤ a ∧
        ∀ x ∈ ds, ds.foldl min a ≤ x := by
  intro ds
  induction ds with
  | nil => intro a; exact ⟨by simp, le_refl _, by simp⟩
  | cons d rest ih =>
    intro a
    obtain ⟨hmem, hlea, hall⟩ := ih (min a d)
    have hle : rest.foldl min (min a d) ≤ min a d := hlea
    refine ⟨?_, ?_, ?_⟩
    · show rest.foldl min (min a d) ∈ a :: d :: rest
      rcases List.mem_cons.mp hmem with h | h
      · rcases min_choice a d with hm | hm
        · rw [h, hm]; exact List.mem_cons_self _ _
        · rw [h, hm]; exact List.mem_cons_of_mem _ (List.mem_cons_self _ _)
      · exact List.mem_cons_of_mem _ (List.mem_cons_of_mem _ h)
    · show rest.foldl min (min a d) ≤ a
      exact le_trans hle (min_le_left _ _)
    · intro x hx
      rcases List.mem_cons.mp hx with h | h
      · subst h
        exact le_trans hle (min_le_right _ _)
      · exact hall x h

/-- `pyMin` of a non-empty list is its minimum. -/
lemma pyMin_spec (l : List ℚ) (hl : l ≠ []) :
    pyMin l ∈ l ∧ ∀ x ∈ l, pyMin l ≤ x := by
  cases l with
  | nil => cases hl rfl
  | cons d ds =>
    obtain ⟨hmem, hlea, hall⟩ := foldl_min_spec ds d
    refine ⟨hmem, ?_⟩
    intro x hx
    rcases List.mem_cons.mp hx with h | h
    · subst h; exact hlea
    · exact hall x h

/-! ## C3: `KnowledgeBase.search` degrades, never raises -/

/-- C3: `kb_search` is total (the `try/except` of the source is the
`Except` match here, so no exception reaches the caller), returns the
sentinel `("", [], 1.0)` exactly in the three degraded situations — empty
store (without querying), store exception, zero matches — and otherwise
returns the rank-order joined context, the de-duplicated sources and the
minimum returned distance. -/
theorem kb_search_spec (count : Nat) (qr : Except Unit QueryOut) :
    (count = 0 → kb_search count qr = (SENTINEL, false)) ∧
    (count ≠ 0 → ∀ e, qr = Except.error e → kb_search count qr = (SENTINEL, true)) ∧
    (count ≠ 0 → ∀ r, qr = Except.ok r → r.documents = [] →
      kb_search count qr = (SENTINEL, true)) ∧
    (count ≠ 0 → ∀ r, qr = Except.ok r → r.documents ≠ [] →
      kb_search count qr =
        (⟨List.intercalate SEP r.documents,
          (r.metadatas.filterMap
            (fun m => m.bind (fun s => if s = [] then none else some s))).dedup,
          pyMin r.distances⟩, true) ∧
      (r.distances ≠ [] →
        (kb_search count qr).1.bestDistance ∈ r.distances ∧
        ∀ x ∈ r.distances, (kb_search count qr).1.bestDistance ≤ x)) := by
  refine ⟨?_, ?_, ?_, ?_⟩
  · intro h0
    unfold kb_search
    rw [if_pos h0]
  · intro h0 e he
    subst he
    unfold kb_search
    rw [if_neg h0]
  · intro h0 r hr hd
    subst hr
    unfold kb_search
    rw [if_neg h0]
    simp only
    rw [if_pos hd]
  · intro h0 r hr hd
    subst hr
    have hres : kb_search count (Except.ok r) =
        (⟨List.intercalate SEP r.documents,
          (r.metadatas.filterMap
            (fun m => m.bind (fun s => if s = [] then none else some s))).dedup,
          pyMin r.distances⟩, true) := by
      unfold kb_search
      rw [if_neg h0]
      simp only
      rw [if_neg hd]
    refine ⟨hres, ?_⟩
    intro hdist
    rw [hres]
    exact pyMin_spec r.distances hdist

/-- Witness for `kb_search_spec`, covering each branch at concrete
inputs: empty store, raising store, zero matches, and `kbDemo`. -/
theorem kb_search_spec_witness :
    kb_search 0 (Except.error ()) = (SENTINEL, false) ∧
    kb_search 2 (Except.error ()) = (SENTINEL, true) ∧
    kb_search 2 (Except.ok ⟨[], [], []⟩) = (SENTINEL, true) ∧
    (kb_search 2 (Except.ok kbDemo)).1.context = "d1\n\n---\n\nd2".toList ∧
    (kb_search 2 (Except.ok kbDemo)).1.sources = ["s1".toList] ∧
    (kb_search 2 (Except.ok kbDemo)).1.bestDistance ∈ [(3 : ℚ)/10, 1/10] ∧
    ∀ x ∈ [(3 : ℚ)/10, 1/10], (kb_search 2 (Except.ok kbDemo)).1.bestDistance ≤ x := by
  have h4 := (kb_search_spec 2 (Except.ok kbDemo)).2.2.2 (by decide) _ rfl
    (by decide)
  have hmin := h4.2 (by decide)
  refine ⟨(kb_search_spec 0 (Except.error ())).1 rfl,
    (kb_search_spec 2 (Except.error ())).2.1 (by decide) () rfl,
    (kb_search_spec 2 (Except.ok ⟨[], [], []⟩)).2.2.1 (by decide) _ rfl rfl,
    ?_, ?_, hmin.1, hmin.2⟩
  · rw [h4.1]
    decide
  · rw [h4.1]
    decide

/-! ## C10: sources are de-duplicated and non-empty -/

/-- C10: in a non-degraded search result the source list has no
duplicates and no empty strings; every returned source is a metadata
`source` field. -/
theorem kb_search_sources_clean (count : Nat) (r : QueryOut)
    (hc : count ≠ 0) (hd : r.documents ≠ []) :
    ((kb_search count (Except.ok r)).1.sources).Nodup ∧
    ∀ s ∈ (kb_search count (Except.ok r)).1.sources,
      s ≠ [] ∧ some s ∈ r.metadatas := by
  have hres : (kb_search count (Except.ok r)).1.sources =
      (r.metadatas.filterMap
        (fun m => m.bind (fun s => if s = [] then none else some s))).dedup := by
    unfold kb_search
    rw [if_neg hc]
    simp only
    rw [if_neg hd]
  rw [hres]
  refine ⟨List.nodup_dedup _, ?_⟩
  intro s hs
  rw [List.mem_dedup] at hs
  obtain ⟨m, hm, hms⟩ := List.mem_filterMap.mp hs
  cases m with
  | none => cases hms
  | some v =>
    simp only [Option.some_bind] at hms
    by_cases hv : v = []
    · rw [if_pos hv] at hms; cases hms
    · rw [if_neg hv] at hms
      injection hms with hms
      subst hms
      exact ⟨hv, hm⟩

/-- Witness for `kb_search_sources_clean` on the duplicated-source
input. -/
theorem kb_search_sources_clean_witness :
    ((kb_search 2 (Except.ok ⟨["d1".toList, "d2".toList],
        [some "s1".toList, some "s1".toList, none, some []],
        [3/10, 1/10]⟩)).1.sources).Nodup ∧
    ∀ s ∈ (kb_search 2 (Except.ok ⟨["d1".toList, "d2".toList],
        [some "s1".toList, some "s1".toList, none, some []],
        [3/10, 1/10]⟩)).1.sources,
      s ≠ [] ∧ some s ∈ [some "s1".toList, some "s1".toList, none, some []] :=
  kb_search_sources_clean 2 ⟨["d1".toList, "d2".toList],
    [some "s1".toList, some "s1".toList, none, some []],
    [3/10, 1/10]⟩ (by decide) (by decide)

/-! ## C4: cache-key normalization -/

/-- Lowercasing leaves whitespace unchanged. -/
lemma pyWs_pyLower (c : Char) (h : pyWs c = true) : pyLower c = c := by
  simp only [pyWs, Bool.or_eq_true, beq_iff_eq] at h
  rcases h with ((((h | h) | h) | h) | h) | h <;> subst h <;> decide

/-- Lowercasing fixes an all-whitespace list. -/
lemma map_pyLower_ws (w : List Char) (hw : ∀ c ∈ w, pyWs c = true) :
    w.map pyLower = w := by
  induction w with
  | nil => rfl
  | cons c rest ih =>
    simp only [List.map_cons]
    rw [pyWs_pyLower c (hw c (by simp)), ih (fun x hx => hw x (by simp [hx]))]

/-- A leading all-whitespace block is consumed by `dropWhile`. -/
lemma dropWhile_ws_append (w x : List Char) (hw : ∀ c ∈ w, pyWs c = true) :
    (w ++ x).dropWhile pyWs = x.dropWhile pyWs := by
  rw [List.dropWhile_append]
  simp [List.dropWhile_eq_nil_iff.mpr hw]

/-- `dropWhile` distributes over an append when something survives on the
left. -/
lemma lstrip_append_of_ne (x w : List Char) (hne : x.dropWhile pyWs ≠ []) :
    (x ++ w).dropWhile pyWs = x.dropWhile pyWs ++ w := by
  rw [List.dropWhile_append]
  simp [List.isEmpty_iff, hne]

/-- Stripping ignores all-whitespace padding on either side. -/
lemma pyStrip_pad (p s x : List Char) (hp : ∀ c ∈ p, pyWs c = true)
    (hs : ∀ c ∈ s, pyWs c = true) :
    pyStrip (p ++ x ++ s) = pyStrip x := by
  unfold pyStrip
  rw [List.append_assoc, dropWhile_ws_append p (x ++ s) hp]
  by_cases hx : x.dropWhile pyWs = []
  · have hxs : (x ++ s).dropWhile pyWs = [] := by
      rw [List.dropWhile_append]
      simp [hx, List.dropWhile_eq_nil_iff.mpr hs]
    rw [hxs, hx]
  · rw [lstrip_append_of_ne x s hx, List.reverse_append]
    rw [dropWhile_ws_append s.reverse _ (fun c hc => hs c (List.mem_reverse.mp hc))]

/-- Case/whitespace variants normalize identically. -/
lemma pyNormalize_variant (q q' : List Char) (h : CaseWsVariant q q') :
    pyNormalize q = pyNormalize q' := by
  obtain ⟨p₁, s₁, p₂, s₂, c₁, c₂, hp₁, hs₁, hp₂, hs₂, hq, hq', hmap⟩ := h
  unfold pyNormalize
  rw [hq, hq', List.map_append, List.map_append, List.map_append,
    List.map_append]
  rw [map_pyLower_ws p₁ hp₁, map_pyLower_ws s₁ hs₁, map_pyLower_ws p₂ hp₂,
    map_pyLower_ws s₂ hs₂]
  rw [pyStrip_pad p₁ s₁ _ hp₁ hs₁, pyStrip_pad p₂ s₂ _ hp₂ hs₂, hmap]

/-- A freshly `set` entry is found by a subsequent unexpired `get` under
any key that normalizes identically. -/
lemma cacheGet_cacheSet_self (H : List Char → List Char) (st : CacheState)
    (now now' : Int) (q q' : List Char) (a : ChatResponse)
    (hnorm : pyNormalize q = pyNormalize q')
    (httl : now' - now < st.ttl) (hms : 1 ≤ st.maxsize) :
    (cacheGet H (cacheSet H st now q a) now' q').1 = some a := by
  unfold cacheGet cacheSet getKey
  rw [← hnorm]
  dsimp only
  by_cases hsz : st.maxsize <
      ((H (pyNormalize q), a, now) ::
        st.entries.filter (fun e => decide (¬ e.1 = H (pyNormalize q)))).length
  · rw [if_pos hsz]
    obtain ⟨m, hm⟩ : ∃ m, st.maxsize = m + 1 := ⟨st.maxsize - 1, by omega⟩
    rw [hm, List.take_succ_cons, List.find?_cons_of_pos _ (by simp)]
    dsimp only
    rw [if_pos httl]
  · rw [if_neg hsz, List.find?_cons_of_pos _ (by simp)]
    dsimp only
    rw [if_pos httl]

/-- C4: the cache key is the digest of the lowercased, trimmed question,
so `set(q, a)` followed by an unexpired `get(q')` returns `a` whenever
`q'` differs from `q` only in case or outer whitespace; identical
normalized questions always produce the identical key. -/
theorem cache_key_normalization (H : List Char → List Char) (st : CacheState)
    (now now' : Int) (q q' : List Char) (a : ChatResponse)
    (hvar : CaseWsVariant q q') (_h0 : 0 ≤ now' - now)
    (httl : now' - now < st.ttl) (hms : 1 ≤ st.maxsize) :
    (cacheGet H (cacheSet H st now q a) now' q').1 = some a ∧
    getKey H q = getKey H q' := by
  have hn := pyNormalize_variant q q' hvar
  exact ⟨cacheGet_cacheSet_self H st now now' q q' a hn httl hms,
    by unfold getKey; rw [hn]⟩

/-- Witness: `set("  Hello ", a)` then `get("hello")` 10 seconds later
returns `a`. -/
theorem cache_key_normalization_witness :
    (cacheGet id (cacheSet id emptyCache 0 "  Hello ".toList demoAnswer) 10
      "hello".toList).1 = some demoAnswer ∧
    getKey id "  Hello ".toList = getKey id "hello".toList :=
  cache_key_normalization id emptyCache 0 10 "  Hello ".toList
    "hello".toList demoAnswer
    ⟨"  ".toList, " ".toList, [], [], "Hello".toList, "hello".toList,
      by decide, by decide, by decide, by decide, by decide, by decide,
      by decide⟩
    (by decide) (by decide) (by decide)

/-! ## C8: hit/miss accounting and the hit rate -/

/-- C8: every `get` increments exactly one of the hit or miss counters;
after 3 misses and 7 hits the reported hit rate is exactly the string
`"70.0%"`, and with no requests it is the formatting of `0`
(`"0.0%"`). -/
theorem cache_stats_hitrate :
    (∀ (H : List Char → List Char) (st : CacheState) (now : Int)
        (q : List Char),
      ((cacheGet H st now q).2.hits = st.hits + 1 ∧
        (cacheGet H st now q).2.misses = st.misses) ∨
      ((cacheGet H st now q).2.hits = st.hits ∧
        (cacheGet H st now q).2.misses = st.misses + 1)) ∧
    c8run.hits = 7 ∧ c8run.misses = 3 ∧
    (cacheStats c8run).hit_rate = "70.0%" ∧
    emptyCache.hits + emptyCache.misses = 0 ∧
    (cacheStats emptyCache).hit_rate = "0.0%" := by
  refine ⟨?_, by decide, by decide, by decide, by decide, by decide⟩
  intro H st now q
  simp only [cacheGet]
  rcases hf : st.entries.find? (fun e => decide (e.1 = getKey H q)) with _ | e
  · rw [hf]
    exact Or.inr ⟨rfl, rfl⟩
  · rw [hf]
    dsimp only
    by_cases httl : now - e.2.2 < st.ttl
    · rw [if_pos httl]
      exact Or.inl ⟨rfl, rfl⟩
    · rw [if_neg httl]
      exact Or.inr ⟨rfl, rfl⟩

/-! ## C1: the synchronous relevance gate -/

/-- `get` only touches the counters: capacity and TTL are unchanged. -/
lemma cacheGet_state (H : List Char → List Char) (st : CacheState)
    (now : Int) (q : List Char) :
    (cacheGet H st now q).2.ttl = st.ttl ∧
    (cacheGet H st now q).2.maxsize = st.maxsize := by
  simp only [cacheGet]
  rcases hf : st.entries.find? (fun e => decide (e.1 = getKey H q)) with _ | e
  · rw [hf]
    exact ⟨rfl, rfl⟩
  · rw [hf]
    dsimp only
    by_cases httl : now - e.2.2 < st.ttl
    · rw [if_pos httl]; exact ⟨rfl, rfl⟩
    · rw [if_neg httl]; exact ⟨rfl, rfl⟩

/-- On a cache miss with the relevance gate firing, `/chat` returns the
canned off-topic answer, writes it to the cache, and never calls the
generator. -/
lemma chat_miss_offtopic (H : List Char → List Char) (θ : ℚ)
    (st : CacheState) (now : Int) (sr : SearchOut)
    (gen : List Char → List Char → List Char) (q : List Char)
    (hmiss : (cacheGet H st now q).1 = none)
    (hgate : θ < sr.bestDistance ∨ sr.context = []) :
    chat H θ st now sr gen q =
      (offTopicChatResponse,
       cacheSet H (cacheGet H st now q).2 now q offTopicChatResponse,
       false) := by
  unfold chat
  rcases hp : cacheGet H st now q with ⟨o, st₁⟩
  rw [hp] at hmiss
  dsimp only at hmiss
  subst hmiss
  dsimp only
  rw [if_pos hgate]

/-- On a cache miss with the gate not firing, `/chat` generates, builds
the preview from the retrieved context, caches and returns the result. -/
lemma chat_miss_ontopic (H : List Char → List Char) (θ : ℚ)
    (st : CacheState) (now : Int) (sr : SearchOut)
    (gen : List Char → List Char → List Char) (q : List Char)
    (hmiss : (cacheGet H st now q).1 = none)
    (hgate : ¬ (θ < sr.bestDistance ∨ sr.context = [])) :
    chat H θ st now sr gen q =
      (⟨gen q sr.context,
        if 200 < sr.context.length then sr.context.take 200 ++ "...".toList
        else sr.context, sr.sources⟩,
       cacheSet H (cacheGet H st now q).2 now q
         ⟨gen q sr.context,
          if 200 < sr.context.length then sr.context.take 200 ++ "...".toList
          else sr.context, sr.sources⟩,
       true) := by
  unfold chat
  rcases hp : cacheGet H st now q with ⟨o, st₁⟩
  rw [hp] at hmiss
  dsimp only at hmiss
  subst hmiss
  dsimp only
  rw [if_neg hgate]

/-- C1: on a `/chat` cache miss, if the best distance exceeds the
threshold or the context is empty, the pipeline returns the fixed
off-topic answer, stores it under the question's key, and never calls
the generator; with threshold 0.7, distance 0.5 and non-empty context
the generation path runs, and distance 0.9 takes the off-topic path. -/
theorem chat_relevance_gate (H : List Char → List Char) (θ : ℚ)
    (st : CacheState) (now : Int) (sr : SearchOut)
    (gen : List Char → List Char → List Char) (q : List Char) :
    ((cacheGet H st now q).1 = none →
      (θ < sr.bestDistance ∨ sr.context = []) →
      chat H θ st now sr gen q =
        (offTopicChatResponse,
         cacheSet H (cacheGet H st now q).2 now q offTopicChatResponse,
         false) ∧
      (0 < st.ttl → 1 ≤ st.maxsize →
        (cacheGet H (chat H θ st now sr gen q).2.1 now q).1 =
          some offTopicChatResponse)) ∧
    ((cacheGet H st now q).1 = none → sr.bestDistance = 1/2 →
      sr.context ≠ [] →
      (chat H (7/10) st now sr gen q).2.2 = true ∧
      (chat H (7/10) st now sr gen q).1.response = gen q sr.context) ∧
    ((cacheGet H st now q).1 = none → sr.bestDistance = 9/10 →
      (chat H (7/10) st now sr gen q).1 = offTopicChatResponse ∧
      (chat H (7/10) st now sr gen q).2.2 = false ∧
      (chat H (7/10) st now sr gen q).2.1 =
        cacheSet H (cacheGet H st now q).2 now q offTopicChatResponse) := by
  refine ⟨?_, ?_, ?_⟩
  · intro hmiss hgate
    have hc := chat_miss_offtopic H θ st now sr gen q hmiss hgate
    refine ⟨hc, ?_⟩
    intro httl hms
    rw [hc]
    refine cacheGet_cacheSet_self H _ now now q q _ rfl ?_ ?_
    · rw [(cacheGet_state H st now q).1]; omega
    · rw [(cacheGet_state H st now q).2]; omega
  · intro hmiss hbd hctx
    have hgate : ¬ ((7 : ℚ)/10 < sr.bestDistance ∨ sr.context = []) := by
      rw [hbd]
      push_neg
      exact ⟨by norm_num, hctx⟩
    have hc := chat_miss_ontopic H (7/10) st now sr gen q hmiss hgate
    rw [hc]
    exact ⟨rfl, rfl⟩
  · intro hmiss hbd
    have hgate : (7 : ℚ)/10 < sr.bestDistance ∨ sr.context = [] := by
      left; rw [hbd]; norm_num
    have hc := chat_miss_offtopic H (7/10) st now sr gen q hmiss hgate
    rw [hc]
    exact ⟨rfl, rfl, rfl⟩

/-- Witness for the relevance gate at threshold 0.7: distance 0.9 takes
the off-topic path and stores the canned answer, distance 0.5 with
non-empty context calls the generator. -/
theorem chat_relevance_gate_witness :
    (chat id (7/10) emptyCache 0 demoSearchOff demoGen "what".toList).1 =
      offTopicChatResponse ∧
    (chat id (7/10) emptyCache 0 demoSearchOff demoGen "what".toList).2.2 =
      false ∧
    (cacheGet id (chat id (7/10) emptyCache 0 demoSearchOff demoGen
        "what".toList).2.1 0 "what".toList).1 = some offTopicChatResponse ∧
    (chat id (7/10) emptyCache 0 demoSearchOn demoGen "what".toList).2.2 =
      true := by
  have h3 := (chat_relevance_gate id (7/10) emptyCache 0 demoSearchOff
    demoGen "what".toList).2.2 rfl rfl
  have h1 := (chat_relevance_gate id (7/10) emptyCache 0 demoSearchOff
    demoGen "what".toList).1 rfl
    (Or.inl (show (7 : ℚ)/10 < demoSearchOff.bestDistance from by
      show (7 : ℚ)/10 < 9/10
      norm_num))
  have h2 := (chat_relevance_gate id (7/10) emptyCache 0 demoSearchOn
    demoGen "what".toList).2.1 rfl rfl (by decide)
  exact ⟨h3.1, h3.2.1, h1.2 (by decide) (by decide), h2.1⟩

/-! ## C5 and C6: the streaming path -/

/-- C5 counterexample: a streaming request whose generation completes
successfully (the terminal event is the completion event) consults the
cache never — both cache-flags of the handler are `false`, so the cached
answer is not served and the streamed answer is not stored. -/
theorem chat_stream_skips_cache_cx :
    (chat_stream (7/10) demoSearchOn ["d".toList] false).1 =
      [SSEvent.chunk "d".toList, SSEvent.done ["s".toList]] ∧
    (chat_stream (7/10) demoSearchOn ["d".toList] false).2.1 = false ∧
    (chat_stream (7/10) demoSearchOn ["d".toList] false).2.2 = false := by
  have hgate : ¬ ((7 : ℚ)/10 < demoSearchOn.bestDistance ∨
      demoSearchOn.context = []) := by
    push_neg
    refine ⟨?_, by decide⟩
    show (1 : ℚ)/2 ≤ 7/10
    norm_num
  unfold chat_stream
  rw [if_neg hgate]
  exact ⟨rfl, rfl, rfl⟩

/-- C5 (amended): the streaming handler runs the same retrieval and
relevance gate as the synchronous path, but performs no cache lookup and
no cache write: it never calls `ResponseCache.get` or
`ResponseCache.set`, whether the stream succeeds or fails. -/
theorem chat_stream_no_cache (θ : ℚ) (sr : SearchOut)
    (deltas : List (List Char)) (fails : Bool) :
    (chat_stream θ sr deltas fails).2.1 = false ∧
    (chat_stream θ sr deltas fails).2.2 = false ∧
    ((θ < sr.bestDistance ∨ sr.context = []) →
      (chat_stream θ sr deltas fails).1 =
        [SSEvent.chunk OFF_TOPIC_RESPONSE, SSEvent.done []]) ∧
    (¬ (θ < sr.bestDistance ∨ sr.context = []) →
      (chat_stream θ sr deltas fails).1 =
        (deltas.map SSEvent.chunk) ++
          (if fails then [SSEvent.error STREAM_ERROR_MSG]
           else [SSEvent.done sr.sources])) := by
  unfold chat_stream
  by_cases hg : θ < sr.bestDistance ∨ sr.context = []
  · rw [if_pos hg]
    exact ⟨rfl, rfl, fun _ => rfl, fun h => absurd hg h⟩
  · rw [if_neg hg]
    exact ⟨rfl, rfl, fun h => absurd h hg, fun _ => rfl⟩

/-- Witness for the amended streaming claim on both gate outcomes. -/
theorem chat_stream_no_cache_witness :
    (chat_stream (7/10) demoSearchOff ["d".toList] false).2.1 = false ∧
    (chat_stream (7/10) demoSearchOff ["d".toList] false).1 =
      [SSEvent.chunk OFF_TOPIC_RESPONSE, SSEvent.done []] ∧
    (chat_stream (7/10) demoSearchOn ["d".toList] false).2.2 = false ∧
    (chat_stream (7/10) demoSearchOn ["d".toList] false).1 =
      [SSEvent.chunk "d".toList, SSEvent.done ["s".toList]] := by
  have hoff := chat_stream_no_cache (7/10) demoSearchOff ["d".toList] false
  have hon := chat_stream_no_cache (7/10) demoSearchOn ["d".toList] false
  have hgoff : (7 : ℚ)/10 < demoSearchOff.bestDistance ∨
      demoSearchOff.context = [] :=
    Or.inl (show (7 : ℚ)/10 < 9/10 from by norm_num)
  have hgon : ¬ ((7 : ℚ)/10 < demoSearchOn.bestDistance ∨
      demoSearchOn.context = []) := by
    push_neg
    refine ⟨?_, by decide⟩
    show (1 : ℚ)/2 ≤ 7/10
    norm_num
  exact ⟨hoff.1, hoff.2.2.1 hgoff, hon.2.1, hon.2.2.2 hgon⟩

/-- C6: when the provider yields two deltas and then raises, the stream
consists of exactly the two chunk events followed by one terminal error
event with the generic message; no completion event is observed, and no
cache write occurs. -/
theorem chat_stream_error_framing (θ : ℚ) (sr : SearchOut)
    (d₁ d₂ : List Char)
    (hon : ¬ (θ < sr.bestDistance ∨ sr.context = [])) :
    (chat_stream θ sr [d₁, d₂] true).1 =
      [SSEvent.chunk d₁, SSEvent.chunk d₂,
       SSEvent.error STREAM_ERROR_MSG] ∧
    (∀ srcs, SSEvent.done srcs ∉ (chat_stream θ sr [d₁, d₂] true).1) ∧
    (chat_stream θ sr [d₁, d₂] true).2.2 = false := by
  have h1 : (chat_stream θ sr [d₁, d₂] true).1 =
      [SSEvent.chunk d₁, SSEvent.chunk d₂,
       SSEvent.error STREAM_ERROR_MSG] := by
    unfold chat_stream
    rw [if_neg hon]
    rfl
  refine ⟨h1, ?_, by unfold chat_stream; rw [if_neg hon]⟩
  intro srcs hmem
  rw [h1] at hmem
  simp only [List.mem_cons, List.not_mem_nil, or_false] at hmem
  rcases hmem with h | h | h <;> simp at h

/-- Witness for the streaming failure framing at a concrete on-topic
request. -/
theorem chat_stream_error_framing_witness :
    (chat_stream (7/10) demoSearchOn ["d1".toList, "d2".toList] true).1 =
      [SSEvent.chunk "d1".toList, SSEvent.chunk "d2".toList,
       SSEvent.error STREAM_ERROR_MSG] ∧
    (∀ srcs, SSEvent.done srcs ∉
      (chat_stream (7/10) demoSearchOn ["d1".toList, "d2".toList] true).1) ∧
    (chat_stream (7/10) demoSearchOn ["d1".toList, "d2".toList] true).2.2 =
      false :=
  chat_stream_error_framing (7/10) demoSearchOn "d1".toList "d2".toList
    (by
      push_neg
      refine ⟨?_, by decide⟩
      show (1 : ℚ)/2 ≤ 7/10
      norm_num)
